import Mathlib

/-!
Shallow embedding of `src/code.js` ("Texting Block Insert").

JavaScript strings are modelled as `List Char`.  Each definition mirrors one
function (or one regex literal) of the source file; the line numbers in the
doc comments refer to `src/code.js`.
-/

namespace TextingBlock

/-- The character set matched by JavaScript `\s` — which is also the set
stripped by `String.prototype.trim` (ECMAScript WhiteSpace ∪ LineTerminator). -/
def jsWhitespace (c : Char) : Bool :=
  c = ' ' || c = '\t' || c = '\n' || c = '\r' ||
  c = '\x0b' || c = '\x0c' ||
  c = ' ' || c = ' ' ||
  (0x2000 ≤ c.val && c.val ≤ 0x200A) ||
  c = ' ' || c = ' ' || c = ' ' || c = ' ' ||
  c = '　' || c = '﻿'

/-- ECMAScript LineTerminator characters: the characters NOT matched by
the regex metacharacter `.` (no `s` flag anywhere in the source). -/
def isLineTerm (c : Char) : Bool :=
  c = '\n' || c = '\r' || c = ' ' || c = ' '

/-- Model of `String.prototype.trim`: drop leading and trailing whitespace. -/
def jsTrim (s : List Char) : List Char :=
  ((s.dropWhile jsWhitespace).reverse.dropWhile jsWhitespace).reverse

/-- Model of `String.prototype.toLowerCase` (ASCII-accurate model). -/
def jsLower (s : List Char) : List Char :=
  s.map Char.toLower

/-- Model of `String.prototype.replaceAll` specialised to a single-character search
string, which is how `escapeHtml` (code.js line 72) uses it: every
occurrence of `t` is replaced by `r`. -/
def replaceAllChar (t : Char) (r : List Char) (s : List Char) : List Char :=
  s.flatMap (fun c => if c = t then r else [c])

/-- Model of `escapeHtml` (code.js lines 71–73):
`s.replaceAll('&','&amp;').replaceAll('<','&lt;').replaceAll('>','&gt;')`. -/
def escapeHtml (s : List Char) : List Char :=
  replaceAllChar '>' "&gt;".data
    (replaceAllChar '<' "&lt;".data
      (replaceAllChar '&' "&amp;".data s))

/-- The transient message record `{ name, text, side, time, repeatMeta }`
pushed at code.js lines 55–57. -/
structure Part where
  name : List Char
  text : List Char
  side : List Char
  time : List Char
  repeatMeta : Bool
deriving DecidableEq

/-- The loop state of `createTextingHTMLFromPlain` (code.js lines 27–28):
`lastSender` starts as `null`, `parts` as `[]`. -/
structure ParseState where
  lastSender : Option (List Char)
  parts : List Part
deriving DecidableEq

/-- Split a string at its *first* colon, mirroring `^([^:]+):` of the regex
at code.js line 33 (`[^:]+` is greedy but colon-free, so the `:` it is
followed by is necessarily the first colon).  Returns
`(textBeforeFirstColon, textAfterFirstColon)`; `none` when no colon exists.
The caller rejects an empty before-part (the `+` of `[^:]+`). -/
def splitAtFirstColon : List Char → Option (List Char × List Char)
  | [] => none
  | c :: cs =>
    if c = ':' then some ([], cs)
    else (splitAtFirstColon cs).map (fun p => (c :: p.1, p.2))

/-- The `\s*(.+)$` tail of the regex at code.js line 33, with JavaScript
backtracking semantics, applied to the text after the first colon.
`\s*` is greedy: it first swallows the maximal whitespace prefix; `(.+)$`
then needs the non-empty remainder to contain no line terminator (`.` never
matches a line terminator and `$` is end-of-input).  If the remainder is
empty (`rest` all whitespace), `\s*` backtracks one character, so the match
succeeds with group 2 = the last character, provided it is not a line
terminator; backtracking further always re-includes that final character,
so no other outcome is possible. -/
def matchTail (rest : List Char) : Option (List Char) :=
  let b0 := rest.dropWhile jsWhitespace
  if b0 = [] then
    match rest.getLast? with
    | none => none
    | some c => if isLineTerm c then none else some [c]
  else if b0.any isLineTerm then none
  else some b0

/-- Model of `line.match(/^([^:]+):\s*(.+)$/)` (code.js line 33): returns the two
capture groups on success. -/
def parseLine (line : List Char) : Option (List Char × List Char) :=
  match splitAtFirstColon line with
  | none => none
  | some (before, after) =>
    if before = [] then none
    else
      match matchTail after with
      | none => none
      | some b => some (before, b)

/-- Side selection, code.js lines 44–50.  `defaultUser`/`defaultChar` are
JavaScript strings whose truthiness test (`defaultUser && …`) is
"non-empty".  Both the `else if` branch and the final `else` assign
`'left'`, exactly as in the source. -/
def sideFor (defaultChar defaultUser name : List Char) : List Char :=
  if defaultUser ≠ [] ∧ jsLower name = jsLower defaultUser then "right".data
  else if defaultChar ≠ [] ∧ jsLower name = jsLower defaultChar then "left".data
  else "left".data

/-- JavaScript truthiness of the `lastSender` variable: `null` and the
empty string are falsy, every other string is truthy. -/
def truthyStr (lastSender : Option (List Char)) : Bool :=
  match lastSender with
  | none => false
  | some l => !l.isEmpty

/-- The guard `lastSender && lastSender === name` of code.js line 53
(`lastSender` is `null` or a string; an empty string is falsy). -/
def matchPrev (lastSender : Option (List Char)) (name : List Char) : Bool :=
  match lastSender with
  | none => false
  | some l => !l.isEmpty && l == name

/-- Model of `parts[parts.length - 1] := f parts[parts.length - 1]` — the in-place
mutation of the last pushed record at code.js line 37. -/
def updateLast (f : Part → Part) : List Part → List Part
  | [] => []
  | [p] => [f p]
  | p :: q :: rest => p :: updateLast f (q :: rest)

/-- One iteration of the `for (const raw of lines)` loop of
`createTextingHTMLFromPlain` (code.js lines 29–60).  `timeStr` stands for
`formatTime(new Date())` (line 52), which depends on the wall clock and the
host locale and is therefore a parameter of the embedding. -/
def stepLine (defaultChar defaultUser timeStr : List Char)
    (s : ParseState) (raw : List Char) : ParseState :=
  let line := jsTrim raw
  if line = [] then s -- line 31: `if (!line) continue`
  else
    match parseLine line with
    | none =>
      -- lines 34–40: no colon match; `if (lastSender && parts.length)`
      -- append `"\n" + line` to the text of the last pushed record
      if truthyStr s.lastSender && !s.parts.isEmpty then
        { s with
          parts := updateLast (fun p => { p with text := p.text ++ '\n' :: line }) s.parts }
      else s
    | some (m1, m2) =>
      -- lines 41–59: push a record and remember the sender
      let name := jsTrim m1
      let text := jsTrim m2
      let side := sideFor defaultChar defaultUser name
      let repeatMeta := !(matchPrev s.lastSender name)
      { lastSender := some name,
        parts := s.parts ++ [⟨name, text, side, timeStr, repeatMeta⟩] }

/-- Run the scanning loop of `createTextingHTMLFromPlain` over all lines,
from the initial state `{ lastSender := null, parts := [] }`. -/
def runParse (defaultChar defaultUser timeStr : List Char)
    (lines : List (List Char)) : ParseState :=
  lines.foldl (stepLine defaultChar defaultUser timeStr) ⟨none, []⟩

/-- The `metaHtml` template string of code.js line 65 (the branch taken when
`p.repeatMeta` is true). -/
def metaHtmlOf (p : Part) : List Char :=
  "<div class=\"meta\"><span class=\"name\">".data ++ escapeHtml p.name ++
  "</span><span class=\"dot\">•</span><span class=\"time\">".data ++ p.time ++
  "</span></div>".data

/-- Model of `const metaHtml = p.repeatMeta ? … : ''` (code.js line 65). -/
def renderMetaOf (p : Part) : List Char :=
  if p.repeatMeta then metaHtmlOf p else []

/-- The message template of code.js line 66:
`<div class="message ${side}">${metaHtml}<div class="bubble ${side}">…</div></div>`. -/
def renderPart (p : Part) : List Char :=
  "<div class=\"message ".data ++ p.side ++ "\">".data ++ renderMetaOf p ++
  "<div class=\"bubble ".data ++ p.side ++ "\">".data ++ escapeHtml p.text ++
  "</div></div>".data

/-- Model of `createTextingHTMLFromPlain` (code.js lines 25–69): scan the lines, then
render every record and join with `"\n"` (lines 63–68). -/
def createTextingHTMLFromPlain (lines : List (List Char))
    (defaultChar defaultUser timeStr : List Char) : List Char :=
  List.intercalate ['\n'] ((runParse defaultChar defaultUser timeStr lines).parts.map renderPart)

/-! Section: The class-detection regex of `buildTextingBlock`

Code.js line 77 tests
`/\bclass=["']?(?:[^"'>]*\bchatbox\b|[^"'>]*\bchat-body\b)/i`.
The following functions decide whether that regex matches somewhere in a
string.  `\w` is `[A-Za-z0-9_]`; `\b` holds between a word char and a
non-word char (or the string edge). -/

/-- JavaScript `\w`. -/
def isWordChar (c : Char) : Bool :=
  ('a' ≤ c && c ≤ 'z') || ('A' ≤ c && c ≤ 'Z') || ('0' ≤ c && c ≤ '9') || c = '_'

/-- Case-insensitive literal match (the regex carries the `i` flag):
consume `pat` from the front of `s`, returning the rest. -/
def matchCI : List Char → List Char → Option (List Char)
  | [], s => some s
  | _ :: _, [] => none
  | p :: ps, c :: cs => if c.toLower = p.toLower then matchCI ps cs else none

/-- Test for `\b word \b` anchored at the current position, `prev` being the
character just before it (`none` at the string start).  Both ends of the
words `chatbox` / `chat-body` are word characters, so each `\b` just
requires the neighbour to be absent or a non-word character. -/
def chatWordAt (w : List Char) (prev : Option Char) (s : List Char) : Bool :=
  (match prev with | none => true | some c => !isWordChar c) &&
  (match matchCI w s with
   | none => false
   | some [] => true
   | some (c :: _) => !isWordChar c)

/-- The alternation `[^"'>]*\bchatbox\b|[^"'>]*\bchat-body\b`: scan forward
through characters allowed by `[^"'>]`, accepting as soon as either word
(with its boundaries) matches at the current position — exactly the set of
strings on which the backtracking alternation can succeed. -/
def scanClassTail (prev : Option Char) : List Char → Bool
  | [] =>
    chatWordAt "chatbox".data prev [] || chatWordAt "chat-body".data prev []
  | c :: cs =>
    chatWordAt "chatbox".data prev (c :: cs) ||
    chatWordAt "chat-body".data prev (c :: cs) ||
    (!(c = '"' || c = '\'' || c = '>') && scanClassTail (some c) cs)

/-- A match of the whole class regex starting at the current position:
`\b` (before the word character `c` of `class=`), the literal `class=`
case-insensitively, the optional quote `["']?`, then the alternation.
If a quote is present, consuming it is the only way the tail can match
(a quote is excluded by `[^"'>]` and differs from `c`/`C`), so the `?` is
resolved by consuming the quote exactly when it is there. -/
def classAt (prev : Option Char) (s : List Char) : Bool :=
  (match prev with | none => true | some c => !isWordChar c) &&
  (match matchCI "class=".data s with
   | none => false
   | some [] => scanClassTail (some '=') []
   | some (c :: cs) =>
     if c = '"' || c = '\'' then scanClassTail (some c) cs
     else scanClassTail (some '=') (c :: cs))

/-- Try `classAt` at every position of the string. -/
def hasChatClassAux (prev : Option Char) (s : List Char) : Bool :=
  classAt prev s ||
  (match s with
   | [] => false
   | c :: cs => hasChatClassAux (some c) cs)

/-- Model of `/\bclass=["']?(?:[^"'>]*\bchatbox\b|[^"'>]*\bchat-body\b)/i.test(innerHtml)`
(code.js line 77). -/
def hasChatClass (s : List Char) : Bool :=
  hasChatClassAux none s

/-- After a `<` and at least one non-`>` character: is there a later `>`?
(Characters before the first `>` found are all non-`>`.) -/
def closeFrom : List Char → Bool
  | [] => false
  | c :: cs => c = '>' || closeFrom cs

/-- The `[^>]+>` part of `/<[^>]+>/`: at least one non-`>` character, then
a `>`. -/
def tagFrom : List Char → Bool
  | [] => false
  | c :: cs => !(c = '>') && closeFrom cs

/-- Model of `/<[^>]+>/.test(innerHtml)` (code.js line 82). -/
def containsHtmlTag : List Char → Bool
  | [] => false
  | c :: cs => (c = '<' && tagFrom cs) || containsHtmlTag cs

/-- Model of `innerHtml.split(/\r?\n/)` (code.js line 87): `\r?` is greedy, so a
`"\r\n"` pair is one separator and a lone `"\n"` is a separator; a lone
`"\r"` is not. -/
def splitNewlinesAux (cur : List Char) : List Char → List (List Char)
  | [] => [cur.reverse]
  | '\r' :: '\n' :: rest => cur.reverse :: splitNewlinesAux [] rest
  | '\n' :: rest => cur.reverse :: splitNewlinesAux [] rest
  | c :: rest => splitNewlinesAux (c :: cur) rest

/-- Model of `innerHtml.split(/\r?\n/)`. -/
def splitNewlines (s : List Char) : List (List Char) :=
  splitNewlinesAux [] s

/-- The environment of the two global-reading helpers of code.js lines
92–98 (`getCharacterOrPlaceholder`, `getUserOrPlaceholder`) and of
`formatTime(new Date())`: the resolved character name, user name and
formatted current time, all host state outside this script. -/
structure Cfg where
  charName : List Char
  userName : List Char
  timeStr : List Char
deriving DecidableEq

/-- The `<div class="header">…</div>` template shared by code.js
lines 83 and 89. -/
def headerHtml (cfg : Cfg) : List Char :=
  "<div class=\"header\"><strong>".data ++ cfg.charName ++ " ↔ ".data ++
  cfg.userName ++ "</strong></div>".data

/-- The first return of `buildTextingBlock` (code.js line 78): wrap the
inner HTML unchanged in a `.texting-block` container. -/
def wrapExisting (innerHtml : List Char) : List Char :=
  "<div class=\"texting-block\">".data ++ innerHtml ++ "</div>".data

/-- The second return of `buildTextingBlock` (code.js line 83): the inner
HTML is kept verbatim but nested in a
`.texting-block > .chatbox > (.header, .chat-body)` structure. -/
def wrapHtmlContent (cfg : Cfg) (innerHtml : List Char) : List Char :=
  "<div class=\"texting-block\"><div class=\"chatbox\">".data ++ headerHtml cfg ++
  "<div class=\"chat-body\">".data ++ innerHtml ++ "</div></div></div>".data

/-- The third return of `buildTextingBlock` (code.js lines 87–89): split
into lines, trim and drop falsy (empty) ones, parse them as
`name: message` text, and wrap the generated bubbles. -/
def wrapPlainParsed (cfg : Cfg) (innerHtml : List Char) : List Char :=
  let lines := ((splitNewlines innerHtml).map jsTrim).filter (fun l => !l.isEmpty)
  let parsed := createTextingHTMLFromPlain lines cfg.charName cfg.userName cfg.timeStr
  "<div class=\"texting-block\"><div class=\"chatbox\">".data ++ headerHtml cfg ++
  "<div class=\"chat-body\">".data ++ parsed ++ "</div></div></div>".data

/-- Model of `buildTextingBlock` (code.js lines 75–90). -/
def buildTextingBlock (cfg : Cfg) (innerHtml : List Char) : List Char :=
  if hasChatClass innerHtml then wrapExisting innerHtml
  else if containsHtmlTag innerHtml then wrapHtmlContent cfg innerHtml
  else wrapPlainParsed cfg innerHtml

/-! Section: The marker regexes of `processNode`

Code.js line 113 is the regex *literal*
`/\\[\\[texting\\]\\]([\\s\\S]*?)\\[\\[\\/texting\\]\\]/gi` and line 120 is
`/\\[\\[texting\\]\\]\\s*([\\s\\S]*)/i`.  Inside a regex literal `\\`
denotes one literal backslash, so these patterns read, token by token
(`i` flag: letters are case-insensitive):

`reBlock`: backslash, the class `[\[texting]` (one of `\` `[` `t` `e` `x`
`i` `n` `g`), backslash, literal `]`, then `([\sS]*?)` (a lazy run over the
class `\`/`s`/`S`), then backslash, the class `[\[/texting]`, backslash,
literal `]`.

`reSingle`: backslash, the class `[\[texting]`, backslash, literal `]`,
backslash, `s*`, then `([\sS]*)` which always matches the whole rest.

Neither pattern can match the plain marker text `[[texting]]`, which
contains no backslash — see the `C1` theorem below. -/

/-- The character class `[\\[texting\\]` = `[\[texting]` under the `i`
flag: one of `\`, `[`, or a letter of `texting` in either case. -/
def inClassTexting (c : Char) : Bool :=
  c = '\\' || c = '[' ||
  (let l := c.toLower
   l = 't' || l = 'e' || l = 'x' || l = 'i' || l = 'n' || l = 'g')

/-- The class `[\\s\\S]` = `[\sS]`: one of `\`, `s`, `S`. -/
def inClassMid (c : Char) : Bool :=
  c = '\\' || c = 's' || c = 'S'

/-- The class `[\\[\\/texting\\]` = `[\[/texting]` (with `i`). -/
def inClassClose (c : Char) : Bool :=
  inClassTexting c || c = '/'

/-- The opening tokens `\\ [class] \\ ]` of both marker regexes: on
success, return the rest of the string. -/
def openInfo : List Char → Option (List Char)
  | '\\' :: c1 :: '\\' :: ']' :: rest =>
    if inClassTexting c1 then some rest else none
  | _ => none

/-- The closing tokens `\\ [class] \\ ]` of `reBlock`. -/
def closeInfo : List Char → Option (List Char)
  | '\\' :: c2 :: '\\' :: ']' :: rest =>
    if inClassClose c2 then some rest else none
  | _ => none

/-- The lazy middle `([\sS]*?)` of `reBlock` followed by its closing
tokens: at each position first try to close (lazy = shortest middle), else
consume one `[\sS]` character.  Returns the captured middle and the text
after the match. -/
def blockMid (acc : List Char) : List Char → Option (List Char × List Char)
  | [] => none
  | c :: cs =>
    match closeInfo (c :: cs) with
    | some rest => some (acc.reverse, rest)
    | none => if inClassMid c then blockMid (c :: acc) cs else none

/-- A full `reBlock` match starting at the current position. -/
def reBlockAt (s : List Char) : Bool :=
  match openInfo s with
  | some rest => (blockMid [] rest).isSome
  | none => false

/-- Model of `reBlock.test(html)` (code.js line 114): does the pattern match at some
position?  (`test` on a fresh regex starts at index 0 and scans forward.) -/
def reBlockTest : List Char → Bool
  | [] => reBlockAt []
  | c :: cs => reBlockAt (c :: cs) || reBlockTest cs

/-- A `reSingle` match starting at the current position: after the opening
tokens the pattern is `\\ s* ([\sS]*)`, so it only needs one more literal
backslash; `s*` then swallows the maximal run of `s`/`S` (greedy, `i`
flag) and the group captures everything after it, up to the end of the
string.  Returns the captured group. -/
def singleAt : List Char → Option (List Char)
  | '\\' :: c1 :: '\\' :: ']' :: '\\' :: rest =>
    if inClassTexting c1 then some (rest.dropWhile (fun c => c = 's' || c = 'S'))
    else none
  | _ => none

/-- Model of `reSingle.test(html)` (code.js line 121). -/
def reSingleTest : List Char → Bool
  | [] => (singleAt []).isSome
  | c :: cs => (singleAt (c :: cs)).isSome || reSingleTest cs

/-- Fact: `openInfo` consumes exactly four characters. -/
theorem openInfo_length (s rest : List Char) (h : openInfo s = some rest) :
    rest.length + 4 = s.length := by
  unfold openInfo at h
  split at h
  · split at h
    · cases h; simp
    · cases h
  · cases h

/-- Fact: `closeInfo` consumes exactly four characters. -/
theorem closeInfo_length (s rest : List Char) (h : closeInfo s = some rest) :
    rest.length + 4 = s.length := by
  unfold closeInfo at h
  split at h
  · split at h
    · cases h; simp
    · cases h
  · cases h

/-- Length bound used for the termination of the global replace: a
`reBlock` match consumes at least the four closing characters. -/
theorem blockMid_after_length (acc : List Char) :
    ∀ s mid after, blockMid acc s = some (mid, after) → after.length + 4 ≤ s.length := by
  intro s
  induction s generalizing acc with
  | nil => intro mid after h; simp [blockMid] at h
  | cons c cs ih =>
    intro mid after h
    simp only [blockMid] at h
    cases hclose : closeInfo (c :: cs) with
    | some rest =>
      rw [hclose] at h
      cases h
      have := closeInfo_length _ _ hclose
      omega
    | none =>
      rw [hclose] at h
      by_cases hm : inClassMid c
      · rw [if_pos hm] at h
        have := ih (c :: acc) mid after h
        simp
        omega
      · rw [if_neg hm] at h
        exact absurd h (by simp)

/-- Model of `html.replace(reBlock, (_, inner) => buildTextingBlock(inner.trim()))`
(code.js lines 115–117): a global replace — scan left to right, replace
every (non-overlapping, lazy) match, keep everything else. -/
def replaceBlocks (cfg : Cfg) : List Char → List Char
  | [] => []
  | c :: cs =>
    match hopen : openInfo (c :: cs) with
    | some rest =>
      match hmid : blockMid [] rest with
      | some (mid, after) =>
        buildTextingBlock cfg (jsTrim mid) ++ replaceBlocks cfg after
      | none => c :: replaceBlocks cfg cs
    | none => c :: replaceBlocks cfg cs
termination_by s => s.length
decreasing_by
  · have h4 := blockMid_after_length [] rest mid after hmid
    have h3 := openInfo_length _ _ hopen
    simp at h3 ⊢
    omega
  · simp
  · simp

/-- Model of `html.replace(reSingle, (_, inner) => buildTextingBlock(inner.trim()))`
(code.js lines 122–124): non-global — replace only the leftmost match,
which extends to the end of the string. -/
def replaceSingle (cfg : Cfg) : List Char → List Char
  | [] => []
  | c :: cs =>
    match singleAt (c :: cs) with
    | some inner => buildTextingBlock cfg (jsTrim inner)
    | none => c :: replaceSingle cfg cs

/-- The per-element transform of code.js lines 109–126: compute `replaced`
from `html`.  (`reBlock` carries the `g` flag; `test` then `replace` on a
string still replaces all matches, since `String.replace` resets
`lastIndex` for a global regex.) -/
def processElementHtml (cfg : Cfg) (html : List Char) : List Char :=
  if reBlockTest html then replaceBlocks cfg html
  else if reSingleTest html then replaceSingle cfg html
  else html

/-! Section: `processNode` and its try/catch

The DOM is modelled just deeply enough for `processNode`: an element is its
`innerHTML` plus a flag saying whether assigning its `innerHTML` throws
(host DOM setters can throw); a node carries the result of
`querySelectorAll` (`none` when the method is absent, cf. the
`node.querySelectorAll &&` guard of code.js line 104) and a flag for a
throwing query.  An exception is a `JsError`. -/

structure JsError where
  message : List Char
deriving DecidableEq

/-- A DOM element: its current `innerHTML`, and whether writing to
`innerHTML` raises. -/
structure Element where
  innerHTML : List Char
  writeFails : Bool
deriving DecidableEq

/-- A DOM node as `processNode` sees it. -/
structure DomNode where
  /-- Result of `node.querySelectorAll(…)` result: `none` models a node without the
  method (so `textEls` is undefined/falsy); otherwise the matched
  descendant elements. -/
  queryEls : Option (List Element)
  /-- Whether the `querySelectorAll` call itself throws. -/
  queryFails : Bool
  /-- The node itself, used as the fallback candidate (code.js line 106). -/
  selfEl : Element
deriving DecidableEq

/-- Model of `el.innerHTML = replaced` (code.js line 128): returns the updated
element, or throws. -/
def writeEl (el : Element) (replaced : List Char) : Except JsError Element :=
  if el.writeFails then
    Except.error ⟨"innerHTML setter threw".data⟩
  else
    Except.ok { el with innerHTML := replaced }

/-- The `candidates.forEach(el => …)` body for one element (code.js lines
108–129): skip a falsy (empty) `innerHTML`, compute `replaced`, and write
back only when it differs.  The returned Bool records whether a write
happened. -/
def processEl (cfg : Cfg) (el : Element) : Except JsError (Element × Bool) :=
  if el.innerHTML.isEmpty then Except.ok (el, false) -- line 110: `if (!html) return`
  else if processElementHtml cfg el.innerHTML ≠ el.innerHTML then
    -- line 127–129: `if (replaced !== html) { el.innerHTML = replaced; }`
    (writeEl el (processElementHtml cfg el.innerHTML)).map (fun el2 => (el2, true))
  else Except.ok (el, false)

/-- Model of `candidates` (code.js line 106): `textEls && textEls.length ? textEls
: [node]`. -/
def candidatesOf (n : DomNode) : List Element :=
  match n.queryEls with
  | some (e :: es) => e :: es
  | _ => [n.selfEl]

/-- The whole `try` block of `processNode` (code.js lines 102–130): query
the candidates and process each in turn; the first thrown exception aborts
the `forEach` and escapes to the `catch`. -/
def processBody (cfg : Cfg) (n : DomNode) : Except JsError (List (Element × Bool)) :=
  if n.queryFails then Except.error ⟨"querySelectorAll threw".data⟩
  else (candidatesOf n).mapM (processEl cfg)

/-- The `console.error` line of the `catch` handler (code.js line 132). -/
def consoleErrorOf (e : JsError) : List Char :=
  "[Texting Block] processNode error ".data ++ e.message

/-- Model of `processNode` (code.js lines 100–134): the `try`/`catch` around the
body.  The result is what the *caller* observes: never an exception —
errors are converted into a console log line.  The first component is the
processed elements (empty when the body threw), the second the console
output. -/
def processNode (cfg : Cfg) (n : DomNode) :
    Except JsError (List (Element × Bool) × List (List Char)) :=
  match processBody cfg n with
  | Except.ok els => Except.ok (els, [])
  | Except.error e => Except.ok ([], [consoleErrorOf e])

/-! Section: Helper lemmas about the embedded operations -/

theorem updateLast_length (f : Part → Part) :
    ∀ ps : List Part, (updateLast f ps).length = ps.length := by
  intro ps
  induction ps with
  | nil => rfl
  | cons p ps' ih =>
    cases ps' with
    | nil => rfl
    | cons q rest => simpa [updateLast] using ih

theorem updateLast_get {α : Type} (f : Part → Part) (g : Part → α)
    (hf : ∀ p, g (f p) = g p) :
    ∀ (ps : List Part) (i : Nat) (h : i < (updateLast f ps).length)
      (h' : i < ps.length),
      g ((updateLast f ps).get ⟨i, h⟩) = g (ps.get ⟨i, h'⟩) := by
  intro ps
  induction ps with
  | nil => intro i h h'; simp at h'
  | cons p ps' ih =>
    intro i h h'
    cases ps' with
    | nil =>
      cases i with
      | zero => simpa [updateLast] using hf p
      | succ j => simp at h'
    | cons q rest =>
      cases i with
      | zero => simp [updateLast]
      | succ j =>
        have hj : j < (updateLast f (q :: rest)).length := by
          simpa [updateLast] using h
        have hj' : j < (q :: rest).length := by simpa using h'
        simpa [updateLast] using ih j hj hj'

theorem updateLast_getLast?_name (f : Part → Part)
    (hf : ∀ p, (f p).name = p.name) :
    ∀ ps : List Part, (updateLast f ps).getLast?.map Part.name = ps.getLast?.map Part.name := by
  intro ps
  cases ps with
  | nil => rfl
  | cons p ps' =>
    have hlen := updateLast_length f (p :: ps')
    have hb : (p :: ps').length - 1 < (p :: ps').length := by simp
    have hb2 : (p :: ps').length - 1 < (updateLast f (p :: ps')).length := by
      rw [hlen]; exact hb
    rw [List.getLast?_eq_getElem?, List.getLast?_eq_getElem?, hlen,
      List.getElem?_eq_getElem hb2, List.getElem?_eq_getElem hb]
    have := updateLast_get f Part.name hf (p :: ps') ((p :: ps').length - 1) hb2 hb
    simp only [List.get_eq_getElem] at this
    simp only [List.length_cons, Nat.add_sub_cancel] at this ⊢
    simp [this]

/-- The head of a `dropWhile` result falsifies the predicate. -/
theorem dropWhile_head_false (p : Char → Bool) :
    ∀ (s : List Char) (c : Char) (cs : List Char),
      s.dropWhile p = c :: cs → p c = false := by
  intro s
  induction s with
  | nil => intro c cs h; simp [List.dropWhile] at h
  | cons a as ih =>
    intro c cs h
    rw [List.dropWhile_cons] at h
    by_cases hp : p a
    · rw [if_pos hp] at h; exact ih c cs h
    · rw [if_neg hp] at h
      cases h
      simpa using hp

/-- Fact: `jsTrim` is a prefix of the whitespace-`dropWhile` of its argument. -/
theorem jsTrim_prefix_dropWhile (s : List Char) :
    jsTrim s <+: (s.dropWhile jsWhitespace) := by
  unfold jsTrim
  have h : (s.dropWhile jsWhitespace).reverse.dropWhile jsWhitespace <:+
      (s.dropWhile jsWhitespace).reverse :=
    List.dropWhile_suffix jsWhitespace
  have h2 : ((s.dropWhile jsWhitespace).reverse.dropWhile jsWhitespace).reverse <+:
      (s.dropWhile jsWhitespace).reverse.reverse := by
    rw [List.reverse_prefix]
    simpa using h
  simpa using h2

/-- If `jsTrim s` is non-empty, its head is not whitespace. -/
theorem jsTrim_head_not_ws (s : List Char) (c : Char) (cs : List Char)
    (h : jsTrim s = c :: cs) : jsWhitespace c = false := by
  have hp := jsTrim_prefix_dropWhile s
  rw [h] at hp
  obtain ⟨t, ht⟩ := hp
  exact dropWhile_head_false jsWhitespace s c (cs ++ t) ht.symm

/-- If a string starts with a non-whitespace character, `jsTrim` keeps a
non-empty result. -/
theorem jsTrim_ne_nil_of_head (c : Char) (cs : List Char)
    (hc : jsWhitespace c = false) : jsTrim (c :: cs) ≠ [] := by
  intro h
  unfold jsTrim at h
  rw [List.reverse_eq_nil_iff, List.dropWhile_eq_nil_iff] at h
  have hmem : c ∈ ((c :: cs).dropWhile jsWhitespace).reverse := by
    rw [List.dropWhile_cons, if_neg (by simp [hc])]
    simp
  have := h c hmem
  rw [this] at hc
  cases hc

/-- Decomposition of a successful first-colon split. -/
theorem splitAtFirstColon_eq (l before after : List Char)
    (h : splitAtFirstColon l = some (before, after)) :
    l = before ++ ':' :: after := by
  induction l generalizing before after with
  | nil => simp [splitAtFirstColon] at h
  | cons c cs ih =>
    rw [splitAtFirstColon] at h
    by_cases hc : c = ':'
    · rw [if_pos hc] at h
      cases h
      simp [hc]
    · rw [if_neg hc] at h
      cases hsp : splitAtFirstColon cs with
      | none => rw [hsp] at h; simp at h
      | some p =>
        rw [hsp] at h
        simp at h
        obtain ⟨h1, h2⟩ := h
        rw [← h1, ← h2]
        have := ih p.1 p.2 (by rw [hsp])
        simp [this]

/-- The first capture group of a successful `parseLine` is non-empty. -/
theorem parseLine_m1_ne_nil (line m1 m2 : List Char)
    (h : parseLine line = some (m1, m2)) : m1 ≠ [] := by
  unfold parseLine at h
  split at h
  · cases h
  · split at h
    · cases h
    · split at h
      · cases h
      · cases h
        assumption

/-- For a line produced by `jsTrim`, the parsed sender name
(`m[1].trim()`) is non-empty. -/
theorem parsedName_ne_nil (raw m1 m2 : List Char)
    (h : parseLine (jsTrim raw) = some (m1, m2)) : jsTrim m1 ≠ [] := by
  unfold parseLine at h
  split at h
  · cases h
  · rename_i before after heq
    split at h
    · cases h
    · rename_i hb
      split at h
      · cases h
      · cases h
        -- m1 = before, a non-empty prefix of the trimmed line
        have hdec := splitAtFirstColon_eq _ _ _ heq
        cases hm1 : m1 with
        | nil => exact absurd hm1 hb
        | cons c cs =>
          have hline : jsTrim raw = c :: (cs ++ ':' :: after) := by
            rw [hdec, hm1]; simp
          have hcw : jsWhitespace c = false := jsTrim_head_not_ws raw _ _ hline
          exact jsTrim_ne_nil_of_head c cs hcw

/-- Fact: `(updateLast f ps)[j]?` has the same name as `ps[j]?` when `f`
preserves names. -/
theorem updateLast_getElem?_name (f : Part → Part)
    (hf : ∀ p, (f p).name = p.name) (ps : List Part) (j : Nat) :
    (updateLast f ps)[j]?.map Part.name = ps[j]?.map Part.name := by
  by_cases hj : j < ps.length
  · have hj2 : j < (updateLast f ps).length := by
      rw [updateLast_length]; exact hj
    rw [List.getElem?_eq_getElem hj, List.getElem?_eq_getElem hj2]
    have := updateLast_get f Part.name hf ps j hj2 hj
    simp only [List.get_eq_getElem] at this
    simp [this]
  · have hj2 : ¬ j < (updateLast f ps).length := by
      rw [updateLast_length]; exact hj
    rw [List.getElem?_eq_none (le_of_not_lt hj), List.getElem?_eq_none (le_of_not_lt hj2)]

/-! Section: Case equations for `stepLine` -/

theorem stepLine_of_empty (dc du t : List Char) (s : ParseState) (raw : List Char)
    (h : jsTrim raw = []) : stepLine dc du t s raw = s := by
  simp [stepLine, h]

theorem stepLine_of_noMatch (dc du t : List Char) (s : ParseState) (raw : List Char)
    (hne : jsTrim raw ≠ []) (hpl : parseLine (jsTrim raw) = none) :
    stepLine dc du t s raw =
      (if truthyStr s.lastSender && !s.parts.isEmpty then
        { s with parts :=
            updateLast (fun p => { p with text := p.text ++ '\n' :: jsTrim raw }) s.parts }
      else s) := by
  simp [stepLine, hne, hpl]

theorem stepLine_of_match (dc du t : List Char) (s : ParseState) (raw m1 m2 : List Char)
    (hne : jsTrim raw ≠ []) (hpl : parseLine (jsTrim raw) = some (m1, m2)) :
    stepLine dc du t s raw =
      ⟨some (jsTrim m1),
       s.parts ++ [⟨jsTrim m1, jsTrim m2, sideFor dc du (jsTrim m1), t,
                    !(matchPrev s.lastSender (jsTrim m1))⟩]⟩ := by
  simp [stepLine, hne, hpl]

/-! Section: The scan invariant

`MetaOk` is invariant `C2` of the spec, stated index-wise; `Inv` bundles it
with the bookkeeping facts that make the induction go through. -/

/-- A record's `repeatMeta` (= "emit the metadata line") holds exactly for
the first record and for records whose sender differs from the previous
record's sender. -/
def MetaOk (ps : List Part) : Prop :=
  ∀ (i : Nat) (h : i < ps.length),
    ((ps[i]).repeatMeta = true ↔
      (i = 0 ∨ ps[i-1]?.map Part.name ≠ some (ps[i]).name))

/-- Invariant of the `createTextingHTMLFromPlain` scanning loop. -/
structure Inv (dc du : List Char) (s : ParseState) : Prop where
  last_eq : s.lastSender = s.parts.getLast?.map Part.name
  names_ne : ∀ (i : Nat) (h : i < s.parts.length), (s.parts[i]).name ≠ []
  sides : ∀ (i : Nat) (h : i < s.parts.length),
    (s.parts[i]).side = sideFor dc du (s.parts[i]).name
  metaOk : MetaOk s.parts

theorem inv_init (dc du : List Char) : Inv dc du ⟨none, []⟩ := by
  refine ⟨rfl, ?_, ?_, ?_⟩ <;> intro i h <;> simp at h

theorem inv_step (dc du t : List Char) (s : ParseState) (raw : List Char)
    (hs : Inv dc du s) : Inv dc du (stepLine dc du t s raw) := by
  by_cases hline : jsTrim raw = []
  · rw [stepLine_of_empty dc du t s raw hline]; exact hs
  · cases hpl : parseLine (jsTrim raw) with
    | none =>
      rw [stepLine_of_noMatch dc du t s raw hline hpl]
      by_cases hguard : truthyStr s.lastSender && !s.parts.isEmpty
      · rw [if_pos hguard]
        set f : Part → Part := fun p => { p with text := p.text ++ '\n' :: jsTrim raw } with hfdef
        have hfn : ∀ p, (f p).name = p.name := fun p => rfl
        have hfs : ∀ p, (f p).side = p.side := fun p => rfl
        have hfr : ∀ p, (f p).repeatMeta = p.repeatMeta := fun p => rfl
        refine ⟨?_, ?_, ?_, ?_⟩
        · show s.lastSender = (updateLast f s.parts).getLast?.map Part.name
          rw [updateLast_getLast?_name f hfn]
          exact hs.last_eq
        · intro i h
          have h' : i < s.parts.length := by
            rw [← updateLast_length f s.parts]; exact h
          have hg := updateLast_get f Part.name hfn s.parts i h h'
          simp only [List.get_eq_getElem] at hg
          show ((updateLast f s.parts)[i]).name ≠ []
          rw [hg]
          exact hs.names_ne i h'
        · intro i h
          have h' : i < s.parts.length := by
            rw [← updateLast_length f s.parts]; exact h
          have hgn := updateLast_get f Part.name hfn s.parts i h h'
          have hgs := updateLast_get f Part.side hfs s.parts i h h'
          simp only [List.get_eq_getElem] at hgn hgs
          show ((updateLast f s.parts)[i]).side = sideFor dc du ((updateLast f s.parts)[i]).name
          rw [hgn, hgs]
          exact hs.sides i h'
        · intro i h
          have h' : i < s.parts.length := by
            rw [← updateLast_length f s.parts]; exact h
          have hgn := updateLast_get f Part.name hfn s.parts i h h'
          have hgr := updateLast_get f Part.repeatMeta hfr s.parts i h h'
          simp only [List.get_eq_getElem] at hgn hgr
          show ((updateLast f s.parts)[i]).repeatMeta = true ↔
            (i = 0 ∨ (updateLast f s.parts)[i-1]?.map Part.name ≠
              some ((updateLast f s.parts)[i]).name)
          rw [hgn, hgr, updateLast_getElem?_name f hfn]
          exact hs.metaOk i h'
      · rw [if_neg hguard]; exact hs
    | some m =>
      obtain ⟨m1, m2⟩ := m
      rw [stepLine_of_match dc du t s raw m1 m2 hline hpl]
      set nm := jsTrim m1 with hnm
      set newPart : Part :=
        ⟨nm, jsTrim m2, sideFor dc du nm, t, !(matchPrev s.lastSender nm)⟩ with hnp
      have hnm_ne : nm ≠ [] := parsedName_ne_nil raw m1 m2 hpl
      refine ⟨?_, ?_, ?_, ?_⟩
      · show some nm = (s.parts ++ [newPart]).getLast?.map Part.name
        simp [hnp]
      · intro i h
        simp only [List.length_append, List.length_cons, List.length_nil] at h
        by_cases hi : i < s.parts.length
        · show ((s.parts ++ [newPart])[i]).name ≠ []
          rw [List.getElem_append_left hi]
          exact hs.names_ne i hi
        · have hieq : i = s.parts.length := by omega
          show ((s.parts ++ [newPart])[i]).name ≠ []
          subst hieq
          rw [List.getElem_append_right (le_refl _)]
          simpa [hnp] using hnm_ne
      · intro i h
        simp only [List.length_append, List.length_cons, List.length_nil] at h
        by_cases hi : i < s.parts.length
        · show ((s.parts ++ [newPart])[i]).side =
            sideFor dc du ((s.parts ++ [newPart])[i]).name
          rw [List.getElem_append_left hi]
          exact hs.sides i hi
        · have hieq : i = s.parts.length := by omega
          show ((s.parts ++ [newPart])[i]).side =
            sideFor dc du ((s.parts ++ [newPart])[i]).name
          subst hieq
          rw [List.getElem_append_right (le_refl _)]
          simp
      · intro i h
        simp only [List.length_append, List.length_cons, List.length_nil] at h
        by_cases hi : i < s.parts.length
        · show ((s.parts ++ [newPart])[i]).repeatMeta = true ↔
            (i = 0 ∨ (s.parts ++ [newPart])[i-1]?.map Part.name ≠
              some ((s.parts ++ [newPart])[i]).name)
          have him : i - 1 < s.parts.length := by omega
          rw [List.getElem_append_left hi, List.getElem?_append_left him]
          exact hs.metaOk i hi
        · have hieq : i = s.parts.length := by omega
          show ((s.parts ++ [newPart])[i]).repeatMeta = true ↔
            (i = 0 ∨ (s.parts ++ [newPart])[i-1]?.map Part.name ≠
              some ((s.parts ++ [newPart])[i]).name)
          subst hieq
          rw [List.getElem_append_right (le_refl _)]
          by_cases hps : s.parts.length = 0
          · have hnil : s.parts = [] := List.length_eq_zero.mp hps
            have hls : s.lastSender = none := by
              rw [hs.last_eq, hnil]; rfl
            simp [hnil, hnp, hls, matchPrev]
          · have hlen_pos : 0 < s.parts.length := Nat.pos_of_ne_zero hps
            have hlast : s.parts.getLast? =
                s.parts[s.parts.length - 1]? := List.getLast?_eq_getElem? s.parts
            have him : s.parts.length - 1 < s.parts.length := by omega
            rw [List.getElem?_eq_getElem him] at hlast
            have hls : s.lastSender = some ((s.parts[s.parts.length - 1]).name) := by
              rw [hs.last_eq, hlast]; rfl
            have hqname : (s.parts[s.parts.length - 1]).name ≠ [] :=
              hs.names_ne (s.parts.length - 1) him
            rw [List.getElem?_append_left him, List.getElem?_eq_getElem him]
            simp only [hnp, hls, matchPrev]
            by_cases hqe : (s.parts[s.parts.length - 1]).name = nm
            · simp [hqe, hqname, hnm_ne, hps]
            · simp [hqe, hqname, hps]

theorem inv_foldl (dc du t : List Char) :
    ∀ (lines : List (List Char)) (s : ParseState),
      Inv dc du s → Inv dc du (lines.foldl (stepLine dc du t) s) := by
  intro lines
  induction lines with
  | nil => intro s hs; exact hs
  | cons raw rest ih =>
    intro s hs
    exact ih _ (inv_step dc du t s raw hs)

/-- The scan invariant holds for every run of the parser. -/
theorem inv_runParse (dc du t : List Char) (lines : List (List Char)) :
    Inv dc du (runParse dc du t lines) :=
  inv_foldl dc du t lines ⟨none, []⟩ (inv_init dc du)

/-- The metadata `<div>` is never the empty string. -/
theorem metaHtmlOf_ne_nil (p : Part) : metaHtmlOf p ≠ [] := by
  unfold metaHtmlOf
  simp [List.append_eq_nil]

/-- Fact: `updateLast` preserves the list of sender names. -/
theorem updateLast_map_name (f : Part → Part) (hf : ∀ p, (f p).name = p.name) :
    ∀ ps : List Part, (updateLast f ps).map Part.name = ps.map Part.name := by
  intro ps
  induction ps with
  | nil => rfl
  | cons p ps' ih =>
    cases ps' with
    | nil => simp [updateLast, hf]
    | cons q rest =>
      have h1 : updateLast f (p :: q :: rest) = p :: updateLast f (q :: rest) := rfl
      rw [h1, List.map_cons, List.map_cons, ih]

/-- Dropping leading whitespace is idempotent. -/
theorem dropWhile_ws_idem (l : List Char) :
    (l.dropWhile jsWhitespace).dropWhile jsWhitespace = l.dropWhile jsWhitespace := by
  cases hd : l.dropWhile jsWhitespace with
  | nil => rfl
  | cons c cs =>
    rw [List.dropWhile_cons]
    simp [dropWhile_head_false jsWhitespace l c cs hd]

/-- Fact: `jsTrim` ignores leading whitespace already dropped. -/
theorem jsTrim_dropWhile (l : List Char) :
    jsTrim (l.dropWhile jsWhitespace) = jsTrim l := by
  unfold jsTrim
  rw [dropWhile_ws_idem]

/-- Full case analysis of `sideFor` for a non-empty sender name. -/
theorem sideFor_cases (dc du n : List Char) (hn : n ≠ []) :
    (sideFor dc du n = "left".data ∨ sideFor dc du n = "right".data) ∧
      (sideFor dc du n = "right".data ↔ jsLower n = jsLower du) := by
  unfold sideFor
  by_cases h1 : du ≠ [] ∧ jsLower n = jsLower du
  · rw [if_pos h1]
    exact ⟨Or.inr rfl, by simp [h1.2]⟩
  · rw [if_neg h1]
    have hleft :
        (if dc ≠ [] ∧ jsLower n = jsLower dc then "left".data else "left".data) =
          "left".data := by
      split <;> rfl
    rw [hleft]
    refine ⟨Or.inl rfl, ?_, ?_⟩
    · intro hc
      exact absurd hc (by decide)
    · intro hlow
      exfalso
      apply h1
      refine ⟨?_, hlow⟩
      intro hdu
      rw [hdu] at hlow
      simp only [jsLower, List.map_nil, List.map_eq_nil_iff] at hlow
      exact hn hlow

/-- Membership in a single-character `replaceAll` output comes either from
the replacement string or from an untouched character of the input. -/
theorem replaceAllChar_mem (t : Char) (r s : List Char) (c : Char)
    (hc : c ∈ replaceAllChar t r s) : c ∈ r ∨ (c ∈ s ∧ c ≠ t) := by
  unfold replaceAllChar at hc
  rw [List.mem_flatMap] at hc
  obtain ⟨a, ha, hca⟩ := hc
  by_cases hat : a = t
  · rw [if_pos hat] at hca
    exact Or.inl hca
  · rw [if_neg hat] at hca
    simp only [List.mem_singleton] at hca
    subst hca
    exact Or.inr ⟨ha, hat⟩

/-! Section: Claims -/

/-- C2: in the HTML generated by the plain-text parser, a message's
metadata line (the string `renderMetaOf` splices into its bubble `<div>`)
is non-empty exactly when the message is the first parsed record or its
sender differs from the immediately preceding record's sender. -/
theorem meta_line_iff_sender_change (dc du t : List Char)
    (lines : List (List Char)) (i : Nat)
    (h : i < (runParse dc du t lines).parts.length) :
    renderMetaOf ((runParse dc du t lines).parts[i]) ≠ [] ↔
      (i = 0 ∨ (runParse dc du t lines).parts[i-1]?.map Part.name ≠
        some (((runParse dc du t lines).parts[i]).name)) := by
  have hm := (inv_runParse dc du t lines).metaOk i h
  unfold renderMetaOf
  by_cases hr : ((runParse dc du t lines).parts[i]).repeatMeta = true
  · rw [if_pos hr]
    simp only [iff_true_intro (hm.mp hr), iff_true]
    exact metaHtmlOf_ne_nil _
  · rw [if_neg hr]
    constructor
    · intro hc
      exact absurd rfl hc
    · intro hrhs
      exact absurd (hm.mpr hrhs) hr

/-- C2 witness: on `["a: x", "b: y", "b: z"]` the second message (index 1,
sender changed) carries a metadata line. -/
theorem meta_line_iff_sender_change_witness :
    renderMetaOf ((runParse "c".data "a".data "9:00 AM".data
      ["a: x".data, "b: y".data, "b: z".data]).parts.get ⟨1, by decide⟩) ≠ [] := by
  have hiff := meta_line_iff_sender_change "c".data "a".data "9:00 AM".data
      ["a: x".data, "b: y".data, "b: z".data] 1 (by decide)
  simp only [List.get_eq_getElem]
  refine hiff.mpr (Or.inr ?_)
  decide

/-- C6: every parsed record's side is `left` or `right`, and it is `right`
exactly when the sender name equals the default user name
case-insensitively. -/
theorem side_left_or_right (dc du t : List Char) (lines : List (List Char))
    (p : Part) (hp : p ∈ (runParse dc du t lines).parts) :
    (p.side = "left".data ∨ p.side = "right".data) ∧
      (p.side = "right".data ↔ jsLower p.name = jsLower du) := by
  obtain ⟨i, h, rfl⟩ := List.mem_iff_getElem.mp hp
  have hside := (inv_runParse dc du t lines).sides i h
  have hname := (inv_runParse dc du t lines).names_ne i h
  rw [hside]
  exact sideFor_cases dc du _ hname

/-- C6 witness: with default user `noah`, the record parsed from
`"noah: hi"` sits on the right. -/
theorem side_left_or_right_witness :
    ((⟨"noah".data, "hi".data, "right".data, "9:00 AM".data, true⟩ : Part).side
        = "left".data ∨
      (⟨"noah".data, "hi".data, "right".data, "9:00 AM".data, true⟩ : Part).side
        = "right".data) ∧
    ((⟨"noah".data, "hi".data, "right".data, "9:00 AM".data, true⟩ : Part).side
        = "right".data ↔
      jsLower (⟨"noah".data, "hi".data, "right".data, "9:00 AM".data, true⟩ : Part).name
        = jsLower "Noah".data) :=
  side_left_or_right "eden".data "Noah".data "9:00 AM".data ["noah: hi".data]
    ⟨"noah".data, "hi".data, "right".data, "9:00 AM".data, true⟩ (by decide)

/-- The sender name the parser would extract from one raw line, if any
(`m[1].trim()` of the regex at code.js line 33, applied to the trimmed
line). -/
def lineName (raw : List Char) : Option (List Char) :=
  (parseLine (jsTrim raw)).map (fun m => jsTrim m.1)

theorem foldl_parts_names (dc du t : List Char) :
    ∀ (lines : List (List Char)) (s : ParseState),
      (lines.foldl (stepLine dc du t) s).parts.map Part.name =
        s.parts.map Part.name ++ lines.filterMap lineName := by
  intro lines
  induction lines with
  | nil => intro s; simp
  | cons raw rest ih =>
    intro s
    rw [List.foldl_cons, ih]
    by_cases hline : jsTrim raw = []
    · have hpl : parseLine (jsTrim raw) = none := by
        rw [hline]; rfl
      rw [stepLine_of_empty dc du t s raw hline]
      simp [lineName, hpl]
    · cases hpl : parseLine (jsTrim raw) with
      | none =>
        rw [stepLine_of_noMatch dc du t s raw hline hpl]
        by_cases hguard : truthyStr s.lastSender && !s.parts.isEmpty
        · rw [if_pos hguard]
          simp only []
          rw [updateLast_map_name
            (fun p => { p with text := p.text ++ '\n' :: jsTrim raw }) (fun p => rfl)]
          simp [lineName, hpl]
        · rw [if_neg hguard]
          simp [lineName, hpl]
      | some m =>
        obtain ⟨m1, m2⟩ := m
        rw [stepLine_of_match dc du t s raw m1 m2 hline hpl]
        simp [lineName, hpl]

/-- C7: the parser is a single in-order pass — running it on `l ++ l'`
continues the fold of `l` over `l'` — and the records appear in exactly
the order of the lines that produced them: the list of record names equals
the in-order `filterMap` of the matched lines' names. -/
theorem parser_single_pass_ordered (dc du t : List Char) :
    (∀ l l' : List (List Char),
      runParse dc du t (l ++ l') =
        l'.foldl (stepLine dc du t) (runParse dc du t l)) ∧
    (∀ lines : List (List Char),
      (runParse dc du t lines).parts.map Part.name = lines.filterMap lineName) := by
  constructor
  · intro l l'
    unfold runParse
    exact List.foldl_append (stepLine dc du t) ⟨none, []⟩ l l'
  · intro lines
    unfold runParse
    rw [foldl_parts_names]
    simp

/-- A parser state reached with at least one record has a truthy (non-null,
non-empty) `lastSender`. -/
theorem truthy_last_of_parts_ne (dc du t : List Char) (lines : List (List Char))
    (hne : (runParse dc du t lines).parts ≠ []) :
    truthyStr (runParse dc du t lines).lastSender = true := by
  have hinv := inv_runParse dc du t lines
  have hlen_pos : 0 < (runParse dc du t lines).parts.length :=
    List.length_pos.mpr hne
  have him : (runParse dc du t lines).parts.length - 1 <
      (runParse dc du t lines).parts.length := by omega
  have hlast := List.getLast?_eq_getElem? (runParse dc du t lines).parts
  rw [List.getElem?_eq_getElem him] at hlast
  have hls : (runParse dc du t lines).lastSender =
      some (((runParse dc du t lines).parts[
        (runParse dc du t lines).parts.length - 1]).name) := by
    rw [hinv.last_eq, hlast]; rfl
  have hqname := hinv.names_ne ((runParse dc du t lines).parts.length - 1) him
  rw [hls]
  simp [truthyStr, hqname]

/-- C9: a line that does not match the `name: message` pattern is appended
(with a newline) to the text of the last parsed record when one exists and
is silently discarded when none has been parsed yet; a blank or
whitespace-only line always leaves the state unchanged. -/
theorem continuation_line_behavior (dc du t : List Char)
    (lines : List (List Char)) (raw : List Char) :
    (jsTrim raw = [] →
      runParse dc du t (lines ++ [raw]) = runParse dc du t lines) ∧
    (jsTrim raw ≠ [] → parseLine (jsTrim raw) = none →
      ((runParse dc du t lines).parts = [] →
        runParse dc du t (lines ++ [raw]) = runParse dc du t lines) ∧
      ((runParse dc du t lines).parts ≠ [] →
        runParse dc du t (lines ++ [raw]) =
          { runParse dc du t lines with
            parts := updateLast
              (fun p => { p with text := p.text ++ '\n' :: jsTrim raw })
              (runParse dc du t lines).parts })) := by
  have happ : runParse dc du t (lines ++ [raw]) =
      stepLine dc du t (runParse dc du t lines) raw := by
    unfold runParse
    rw [List.foldl_append]
    rfl
  constructor
  · intro he
    rw [happ, stepLine_of_empty dc du t _ raw he]
  · intro hne hpl
    constructor
    · intro hparts
      have hcond : (truthyStr (runParse dc du t lines).lastSender &&
          !(runParse dc du t lines).parts.isEmpty) = false := by
        rw [hparts]
        simp
      rw [happ, stepLine_of_noMatch dc du t _ raw hne hpl, hcond]
      simp
    · intro hparts
      have hcond : (truthyStr (runParse dc du t lines).lastSender &&
          !(runParse dc du t lines).parts.isEmpty) = true := by
        rw [truthy_last_of_parts_ne dc du t lines hparts]
        simp [hparts]
      rw [happ, stepLine_of_noMatch dc du t _ raw hne hpl, hcond]
      simp

/-- C9 witness: after `"a: x"`, the colon-free line `"more"` is appended to
the record's text as `"x\nmore"`. -/
theorem continuation_line_behavior_witness :
    runParse "c".data "u".data "9:00 AM".data ["a: x".data, "more".data] =
      { runParse "c".data "u".data "9:00 AM".data ["a: x".data] with
        parts := updateLast
          (fun p => { p with text := p.text ++ '\n' :: jsTrim "more".data })
          (runParse "c".data "u".data "9:00 AM".data ["a: x".data]).parts } :=
  ((continuation_line_behavior "c".data "u".data "9:00 AM".data
      ["a: x".data] "more".data).2 (by decide) (by decide)).2 (by decide)

/-- C5 counterexample: the line `":x"` contains a colon with non-empty
text after it, yet the parser creates no record from it — the match needs
at least one character before the colon. -/
theorem colon_split_counterexample :
    splitAtFirstColon ":x".data = some ([], "x".data) ∧
      (runParse "c".data "u".data "9:00 AM".data [":x".data]).parts = [] := by
  decide

/-- C5 amended: for a raw line whose trimmed text has at least one
character before its first colon and whose text after that colon contains
no line terminator and at least one non-whitespace character, the parser
splits at the first colon: the new record's sender name is the text before
the colon, trimmed, and its message text is the text after the colon,
trimmed. -/
theorem colon_split_amended (dc du t : List Char) (s : ParseState)
    (raw before after : List Char)
    (hsplit : splitAtFirstColon (jsTrim raw) = some (before, after))
    (hb : before ≠ [])
    (hnl : ∀ c ∈ after, isLineTerm c = false)
    (hws : ∃ c ∈ after, jsWhitespace c = false) :
    stepLine dc du t s raw =
      ⟨some (jsTrim before),
       s.parts ++ [⟨jsTrim before, jsTrim after, sideFor dc du (jsTrim before), t,
                    !(matchPrev s.lastSender (jsTrim before))⟩]⟩ := by
  have hb0_ne : after.dropWhile jsWhitespace ≠ [] := by
    intro hnil
    rw [List.dropWhile_eq_nil_iff] at hnil
    obtain ⟨c, hc, hcw⟩ := hws
    rw [hnil c hc] at hcw
    cases hcw
  have hb0_nl : (after.dropWhile jsWhitespace).any isLineTerm = false := by
    rw [List.any_eq_false]
    intro c hc
    have hmem : c ∈ after := (List.dropWhile_suffix jsWhitespace).subset hc
    simp [hnl c hmem]
  have hmt : matchTail after = some (after.dropWhile jsWhitespace) := by
    simp only [matchTail]
    rw [if_neg hb0_ne, if_neg (by simp [hb0_nl])]
  have hpl : parseLine (jsTrim raw) =
      some (before, after.dropWhile jsWhitespace) := by
    simp [parseLine, hsplit, hb, hmt]
  have hne : jsTrim raw ≠ [] := by
    intro hnil
    rw [hnil] at hsplit
    cases hsplit
  rw [stepLine_of_match dc du t s raw before (after.dropWhile jsWhitespace) hne hpl,
    jsTrim_dropWhile]

/-- C5 witness: `" noah : hi there "` is split at the first colon into
sender `"noah"` and text `"hi there"`. -/
theorem colon_split_amended_witness :
    stepLine "c".data "u".data "9:00 AM".data ⟨none, []⟩ " noah : hi there ".data =
      ⟨some (jsTrim "noah ".data),
       [] ++ [⟨jsTrim "noah ".data, jsTrim " hi there".data,
               sideFor "c".data "u".data (jsTrim "noah ".data), "9:00 AM".data,
               !(matchPrev none (jsTrim "noah ".data))⟩]⟩ :=
  colon_split_amended "c".data "u".data "9:00 AM".data ⟨none, []⟩
    " noah : hi there ".data "noah ".data " hi there".data
    (by decide) (by decide) (by decide) (by decide)

/-- C8: the output of `escapeHtml` contains no angle brackets, so the
message texts and sender names it guards in `renderPart`/`metaHtmlOf`
cannot introduce new HTML elements. -/
theorem escapeHtml_no_angles (s : List Char) :
    '<' ∉ escapeHtml s ∧ '>' ∉ escapeHtml s := by
  constructor
  · intro h
    unfold escapeHtml at h
    rcases replaceAllChar_mem '>' "&gt;".data _ '<' h with h1 | ⟨h2, _⟩
    · exact absurd h1 (by decide)
    · rcases replaceAllChar_mem '<' "&lt;".data _ '<' h2 with h3 | ⟨_, h4⟩
      · exact absurd h3 (by decide)
      · exact h4 rfl
  · intro h
    unfold escapeHtml at h
    rcases replaceAllChar_mem '>' "&gt;".data _ '>' h with h1 | ⟨_, h2⟩
    · exact absurd h1 (by decide)
    · exact h2 rfl

/-- C4 counterexample: inner content that carries an HTML tag but no
`chatbox`/`chat-body` class (here `<b>hi</b>`) is transformed by a third
branch — a `.chatbox`/`.header`/`.chat-body` wrapper — which is neither
the plain `.texting-block` wrap nor the plain-text parse. -/
theorem buildTextingBlock_counterexample :
    buildTextingBlock ⟨"A".data, "B".data, "9:00 AM".data⟩ "<b>hi</b>".data ≠
        wrapExisting "<b>hi</b>".data ∧
      buildTextingBlock ⟨"A".data, "B".data, "9:00 AM".data⟩ "<b>hi</b>".data ≠
        wrapPlainParsed ⟨"A".data, "B".data, "9:00 AM".data⟩ "<b>hi</b>".data := by
  decide

/-- C4 amended: `buildTextingBlock` applies one of exactly three
transformations — content whose class attribute matches
`chatbox`/`chat-body` is wrapped unchanged in a `.texting-block`
container; otherwise content containing an HTML tag is kept verbatim
inside a `.texting-block > .chatbox > .chat-body` wrapper with a header;
otherwise the content is parsed as plain-text `name: message` lines into
bubble divs. -/
theorem buildTextingBlock_cases (cfg : Cfg) (innerHtml : List Char) :
    (hasChatClass innerHtml = true →
      buildTextingBlock cfg innerHtml = wrapExisting innerHtml) ∧
    (hasChatClass innerHtml = false → containsHtmlTag innerHtml = true →
      buildTextingBlock cfg innerHtml = wrapHtmlContent cfg innerHtml) ∧
    (hasChatClass innerHtml = false → containsHtmlTag innerHtml = false →
      buildTextingBlock cfg innerHtml = wrapPlainParsed cfg innerHtml) :=
  ⟨fun h1 => by simp [buildTextingBlock, h1],
   fun h1 h2 => by simp [buildTextingBlock, h1, h2],
   fun h1 h2 => by simp [buildTextingBlock, h1, h2]⟩

/-- C4 witness: content with a `chatbox` class is wrapped unchanged. -/
theorem buildTextingBlock_cases_witness :
    buildTextingBlock ⟨"A".data, "B".data, "9:00 AM".data⟩
        "<div class=\"chatbox\">x</div>".data =
      wrapExisting "<div class=\"chatbox\">x</div>".data :=
  (buildTextingBlock_cases ⟨"A".data, "B".data, "9:00 AM".data⟩
    "<div class=\"chatbox\">x</div>".data).1 (by decide)

/-- C10: `processEl` writes back only when one of the two marker patterns
matched and the replacement differs from the original HTML; an element
whose HTML matches neither pattern is returned byte-for-byte unchanged
with no write. -/
theorem write_only_on_match (cfg : Cfg) (el : Element) :
    ((reBlockTest el.innerHTML = false ∧ reSingleTest el.innerHTML = false) →
      processEl cfg el = Except.ok (el, false)) ∧
    (∀ el2, processEl cfg el = Except.ok (el2, true) →
      ((reBlockTest el.innerHTML = true ∨ reSingleTest el.innerHTML = true) ∧
        el2.innerHTML ≠ el.innerHTML)) := by
  constructor
  · rintro ⟨hb, hs⟩
    unfold processEl
    by_cases he : el.innerHTML.isEmpty
    · rw [if_pos he]
    · rw [if_neg he]
      have hrep : processElementHtml cfg el.innerHTML = el.innerHTML := by
        unfold processElementHtml
        rw [hb, hs]
        simp
      simp [hrep]
  · intro el2 h
    unfold processEl at h
    by_cases he : el.innerHTML.isEmpty
    · rw [if_pos he] at h
      simp at h
    · rw [if_neg he] at h
      by_cases hne : processElementHtml cfg el.innerHTML ≠ el.innerHTML
      · rw [if_pos hne] at h
        unfold writeEl at h
        by_cases hw : el.writeFails
        · rw [if_pos hw] at h
          simp [Except.map] at h
        · rw [if_neg hw] at h
          simp [Except.map] at h
          constructor
          · cases hbt : reBlockTest el.innerHTML
            · cases hst : reSingleTest el.innerHTML
              · exfalso
                apply hne
                unfold processElementHtml
                rw [hbt, hst]
                simp
              · exact Or.inr rfl
            · exact Or.inl rfl
          · rw [← h]
            exact hne
      · rw [if_neg hne] at h
        simp at h

/-- C10 witness: an element whose HTML matches neither marker pattern is
left unchanged and unwritten. -/
theorem write_only_on_match_witness :
    processEl ⟨"c".data, "u".data, "9:00 AM".data⟩ ⟨"hello".data, false⟩ =
      Except.ok (⟨"hello".data, false⟩, false) :=
  (write_only_on_match ⟨"c".data, "u".data, "9:00 AM".data⟩
    ⟨"hello".data, false⟩).1 ⟨by decide, by decide⟩

/-- C3: `processNode` never propagates an exception — its result is always
`ok` — and when its body threw, the caught error is reported as the
console error line. -/
theorem processNode_catches_all (cfg : Cfg) (n : DomNode) :
    (processNode cfg n).isOk = true ∧
      (∀ e, processBody cfg n = Except.error e →
        processNode cfg n = Except.ok ([], [consoleErrorOf e])) := by
  unfold processNode
  cases hb : processBody cfg n with
  | ok els =>
    refine ⟨rfl, ?_⟩
    intro e he
    cases he
  | error e =>
    refine ⟨rfl, ?_⟩
    intro e2 he2
    cases he2
    rfl

/-- C3 witness: a node whose `querySelectorAll` throws still yields an
`ok` result carrying the console error line. -/
theorem processNode_catches_all_witness :
    processNode ⟨"c".data, "u".data, "9:00 AM".data⟩
        ⟨some [], true, ⟨[], false⟩⟩ =
      Except.ok ([], [consoleErrorOf ⟨"querySelectorAll threw".data⟩]) :=
  (processNode_catches_all ⟨"c".data, "u".data, "9:00 AM".data⟩
    ⟨some [], true, ⟨[], false⟩⟩).2 ⟨"querySelectorAll threw".data⟩ rfl

/-- C1: contrary to the spec (and to the header comment of code.js), an
element whose innerHTML contains a plain `[[texting]]…[[/texting]]` marker
block is NOT rewritten: the regex literals of code.js lines 113 and 120
are written with doubled backslashes, so they demand literal backslash
characters and can never match the plain markers (first conjunct: the full
`processNode` run leaves the element unchanged and performs no write;
second and third: neither pattern matches the marker text).  The fourth
conjunct shows what the block pattern actually accepts: backslash-laden
strings such as `\[\]\[\]`. -/
theorem marker_block_never_replaced :
    processNode ⟨"eden".data, "noah".data, "9:00 AM".data⟩
        ⟨some [⟨"[[texting]]noah: hi[[/texting]]".data, false⟩], false,
         ⟨[], false⟩⟩ =
      Except.ok ([(⟨"[[texting]]noah: hi[[/texting]]".data, false⟩, false)], []) ∧
    reBlockTest "[[texting]]noah: hi[[/texting]]".data = false ∧
    reSingleTest "[[texting]] noah: hi".data = false ∧
    reBlockTest "\\[\\]\\[\\]".data = true := by
  refine ⟨rfl, by decide, by decide, by decide⟩

end TextingBlock
